import Mathlib

/-!
Shallow embedding of `tools/j2objc/j2objc_header_map.py`, a script that
scans Java sources for `package` statements and emits a sorted
`qualifiedName=headerPath` mapping file.

Strings of the Python program (byte strings) are modelled as `List Char`,
each `Char` standing for one byte.  File and archive contents are modelled
as lists of lines; the command line and filesystem reads are modelled by
passing the resolved contents directly to the pure functions below.
-/

/-- Byte strings of the Python 2 program. -/
abbrev Jstr := List Char

/-- Python 2 `str` whitespace class, used by `str.strip`, `str.isspace`
and the regex class `\s`: space, tab, newline, vertical tab, form feed,
carriage return. -/
def isPySpace (c : Char) : Bool :=
  c = ' ' || c = '\t' || c = '\n' || c = '\x0b' || c = '\x0c' || c = '\r'

/-- Python 2 `str` regex class `\w` (no `re.UNICODE`): ASCII letters,
digits and underscore. -/
def isWordChar (c : Char) : Bool :=
  c.isAlphanum || c = '_'

/-- The character class `[\w\.]` of `_PACKAGE_RE`. -/
def isWordDot (c : Char) : Bool :=
  isWordChar c || c = '.'

/-- Python `str.strip()`: remove leading and trailing whitespace. -/
def pyStrip (s : Jstr) : Jstr :=
  ((s.dropWhile isPySpace).reverse.dropWhile isPySpace).reverse

/-- Consume the literal `lit` from the front of `s`; `none` when `s` does
not start with `lit`. -/
def dropLiteral : Jstr → Jstr → Option Jstr
  | [], s => some s
  | _ :: _, [] => none
  | c :: cs, d :: ds => if c = d then dropLiteral cs ds else none

/-- Whether `s` starts with `pre` (Python `str.startswith`). -/
def startsWithL : Jstr → Jstr → Bool
  | _, [] => true
  | [], _ :: _ => false
  | c :: cs, d :: ds => c = d && startsWithL cs ds

/-- Whether `s` ends with `suf` (Python `str.endswith`). -/
def endsWithL (s suf : Jstr) : Bool :=
  startsWithL s.reverse suf.reverse

/-- Match of `_PACKAGE_RE = (package)\s+([\w\.]+);` anchored at the head
of `s`, returning group 2 (the dotted identifier) on success.  Greedy
runs are exact here: after the literal, `\s+` must take the maximal
whitespace run (any shorter run leaves a whitespace character where
`[\w\.]` is required), and `[\w\.]+` must take the maximal word-or-dot
run (any shorter run leaves a word-or-dot character where `;` is
required), so the regex admits no backtracking alternatives. -/
def matchPackageAt (s : Jstr) : Option Jstr :=
  match dropLiteral ('p' :: 'a' :: 'c' :: 'k' :: 'a' :: 'g' :: 'e' :: []) s with
  | none => none
  | some s1 =>
    let ws := s1.takeWhile isPySpace
    let s2 := s1.dropWhile isPySpace
    if ws.isEmpty then none
    else
      let ident := s2.takeWhile isWordDot
      let s3 := s2.dropWhile isWordDot
      if ident.isEmpty then none
      else
        match s3 with
        | [] => none
        | c :: _ => if c = ';' then some ident else none

/-- `_PACKAGE_RE.search(s)`: leftmost match of the pattern in `s`,
returning the match start (which equals `start(1)`, since group 1 opens
the pattern) and group 2. -/
def searchPackage : Jstr → Option (Nat × Jstr)
  | [] =>
    (matchPackageAt []).map (fun g => (0, g))
  | s@(_ :: rest) =>
    match matchPackageAt s with
    | some g => some (0, g)
    | none => (searchPackage rest).map (fun p => (p.1 + 1, p.2))

/-- The per-line body of the loop in `_get_file_map_entry`: strip the
line, search for the package pattern, and apply the preceding-characters
heuristic.  Returns the package name when the line is accepted, `none`
when the line is skipped (no match, comment line, or rejected prefix). -/
def lineHit (line : Jstr) : Option Jstr :=
  let stripped := pyStrip line
  match searchPackage stripped with
  | none => none
  | some (start, pkg) =>
    let preceding := stripped.take start
    if preceding.isEmpty then some pkg
    else if startsWithL preceding ('/' :: '/' :: []) then none
    else if isPySpace (preceding.getLastD ' ')
            || endsWithL preceding (';' :: [])
            || endsWithL preceding ('*' :: '/' :: []) then some pkg
    else none

/-- Index of the last occurrence of `c` in `s` (`str.rfind`, as an
`Option` instead of `-1`). -/
def rfindChar (c : Char) : Jstr → Option Nat
  | [] => none
  | d :: ds =>
    match rfindChar c ds with
    | some i => some (i + 1)
    | none => if d = c then some 0 else none

/-- `os.path.basename` (posix): the part after the last slash. -/
def basename (p : Jstr) : Jstr :=
  match rfindChar '/' p with
  | none => p
  | some i => p.drop (i + 1)

/-- `os.path.splitext` (posix): split at the last dot of the final path
component, unless every character of that component before the dot is
itself a dot (so a leading-dot file name keeps its name whole). -/
def splitext (p : Jstr) : Jstr × Jstr :=
  match rfindChar '.' p with
  | none => (p, [])
  | some d =>
    let f : Nat :=
      match rfindChar '/' p with
      | none => 0
      | some s => s + 1
    if d < f then (p, [])
    else if ((p.take d).drop f).all (fun c => c = '.') then (p, [])
    else (p.take d, p.drop d)

/-- `_get_file_map_entry(java_file_path, java_file)`: scan the lines in
order; the first accepted line yields the pair of the qualified class
name (package name, dot, file base name without extension) and the
header path (source path with its extension replaced by `.h`).  `none`
when no line is accepted. -/
def _get_file_map_entry (java_file_path : Jstr) (java_file : List Jstr) :
    Option (Jstr × Jstr) :=
  match java_file with
  | [] => none
  | line :: rest =>
    match lineHit line with
    | some pkg =>
      some (pkg ++ '.' :: (splitext (basename java_file_path)).1,
            (splitext java_file_path).1 ++ '.' :: 'h' :: [])
    | none => _get_file_map_entry java_file_path rest

/-- A logical source file fed to the extractor: a loose file resolved
from `--source_files`, or an archive member (its identifier then being
the archive-internal entry path from `namelist()`), with its lines. -/
structure SourceUnit where
  path : Jstr
  lines : List Jstr
deriving DecidableEq

/-- Python dict assignment `m[k] = v`: replace the value in place when
the key is present, append the binding otherwise. -/
def setKey : List (Jstr × Jstr) → Jstr → Jstr → List (Jstr × Jstr)
  | [], k, v => [(k, v)]
  | (k₀, v₀) :: rest, k, v =>
    if k₀ = k then (k, v) :: rest else (k₀, v₀) :: setKey rest k v

/-- Python dict indexing `m[k]`, as an `Option`. -/
def lookupKey (k : Jstr) : List (Jstr × Jstr) → Option Jstr
  | [] => none
  | (k₀, v) :: rest => if k₀ = k then some v else lookupKey k rest

/-- The body shared by both loops of `main`: run the extractor on one
unit and, when an entry is produced, store it in the table. -/
def addEntry (m : List (Jstr × Jstr)) (u : SourceUnit) : List (Jstr × Jstr) :=
  match _get_file_map_entry u.path u.lines with
  | some e => setKey m e.1 e.2
  | none => m

/-- The `--source_files` loop of `main`, over the resolved file units. -/
def processFiles (m : List (Jstr × Jstr)) (files : List SourceUnit) :
    List (Jstr × Jstr) :=
  files.foldl addEntry m

/-- The body of the loop of `main` over `jar.namelist()`: only entries
whose name ends with `.java` are opened and scanned. -/
def jarStep (m : List (Jstr × Jstr)) (u : SourceUnit) : List (Jstr × Jstr) :=
  if endsWithL u.path (".java".toList) then addEntry m u else m

/-- The inner loop of `main` over `jar.namelist()`. -/
def processJar (m : List (Jstr × Jstr)) (jar : List SourceUnit) :
    List (Jstr × Jstr) :=
  jar.foldl jarStep m

/-- The `--source_jars` loop of `main`, over the resolved archives. -/
def processJars (m : List (Jstr × Jstr)) (jars : List (List SourceUnit)) :
    List (Jstr × Jstr) :=
  jars.foldl processJar m

/-- The accumulation phase of `main`: all loose files in listed order,
then every archive in listed order, its entries in archive order. -/
def mainMap (files : List SourceUnit) (jars : List (List SourceUnit)) :
    List (Jstr × Jstr) :=
  processJars (processFiles [] files) jars

/-- Ordering of Python 2 `str` comparison: lexicographic by byte. -/
def strLe : Jstr → Jstr → Bool
  | [], _ => true
  | _ :: _, [] => false
  | a :: as, b :: bs => if a = b then strLe as bs else decide (a < b)

/-- Strict version of `strLe`. -/
def strLt (x y : Jstr) : Bool :=
  strLe x y && decide (x ≠ y)

/-- Insert into a sorted list, keeping it sorted. -/
def insertSorted (k : Jstr) : List Jstr → List Jstr
  | [] => [k]
  | x :: xs => if strLe k x then k :: x :: xs else x :: insertSorted k xs

/-- Python `sorted` on a list of byte strings, modelled by insertion
sort; any sorting algorithm agrees with `sorted` here, since `strLe` is
total, transitive and antisymmetric, which makes the sorted permutation
unique. -/
def pySorted : List Jstr → List Jstr
  | [] => []
  | x :: xs => insertSorted x (pySorted xs)

/-- The output loop of `main`: one `class_name=header_path` line plus a
newline per key, keys in `sorted` order. -/
def renderMapping (m : List (Jstr × Jstr)) : Jstr :=
  ((pySorted (m.map Prod.fst)).map
    (fun k => k ++ '=' :: ((lookupKey k m).getD [] ++ '\n' :: []))).flatten

/-- The output phase of `main`: when `--output_mapping_file` is set, the
run writes exactly one file, at that path, with the rendered mapping as
content; otherwise it writes nothing. -/
def mainRun (files : List SourceUnit) (jars : List (List SourceUnit))
    (outPath : Option Jstr) : Option (Jstr × Jstr) :=
  outPath.map (fun p => (p, renderMapping (mainMap files jars)))

/-- First line of the unit accepted by the heuristic, with the package
name it declares. -/
def firstHit (lines : List Jstr) : Option Jstr :=
  lines.findSome? lineHit

/-- The processing order of `main`: all loose files in listed order,
then each archive in listed order with its `.java` entries in archive
order. -/
def unitSeq (files : List SourceUnit) (jars : List (List SourceUnit)) :
    List SourceUnit :=
  files ++
    (jars.map (fun jar => jar.filter (fun u => endsWithL u.path (".java".toList)))).flatten

/-- The value of the entry for key `k` produced by the unit processed
last among those that produce key `k`. -/
def lastWins (us : List SourceUnit) (k : Jstr) : Option Jstr :=
  (((us.filterMap (fun u => _get_file_map_entry u.path u.lines)).filter
      (fun e => e.1 = k)).getLast?).map Prod.snd

/-! Sanity evaluations of the embedding on concrete inputs. -/

example : lineHit ("package com.example;".toList) = some ("com.example".toList) := by decide

example : lineHit ("// package com.example;".toList) = none := by decide

example : lineHit ("*/ package com.example;".toList) = some ("com.example".toList) := by decide

example : lineHit ("/* package com.example;".toList) = some ("com.example".toList) := by decide

example : lineHit ("/*package com.example;".toList) = none := by decide

example : lineHit ("package com.example ;".toList) = none := by decide

example : lineHit ("  package com.example;  ".toList) = some ("com.example".toList) := by decide

example : splitext ("x/Bar.java".toList) = ("x/Bar".toList, ".java".toList) := by decide

example : splitext (".bashrc".toList) = (".bashrc".toList, []) := by decide

example : basename ("x/y/Bar.java".toList) = ("Bar.java".toList) := by decide

example :
    _get_file_map_entry ("x/Bar.java".toList)
      [("// package a.b;".toList), ("package com.example.foo;".toList)] =
      some ("com.example.foo.Bar".toList, "x/Bar.h".toList) := by decide

example :
    mainRun [⟨"A.java".toList, ["package p1;".toList]⟩,
             ⟨"B.java".toList, ["class B {}".toList]⟩] []
      (some ("out".toList)) =
    some ("out".toList, "p1.A=A.h\n".toList) := by decide

example :
    mainMap []
      [[⟨"pkg/Entry.java".toList, ["package pkg;".toList]⟩,
        ⟨"pkg/readme.txt".toList, ["package nope;".toList]⟩]] =
    [("pkg.Entry".toList, "pkg/Entry.h".toList)] := by decide

/-- C3: when the first accepted line of a unit declares namespace `pkg`,
the extractor returns the entry whose qualified name is `pkg` + `.` +
the base file name without extension, and whose header path is the unit
identifier with its extension replaced by `.h`. -/
theorem spec_c3 (p : Jstr) (lines : List Jstr) (pkg : Jstr)
    (h : firstHit lines = some pkg) :
    _get_file_map_entry p lines =
      some (pkg ++ '.' :: (splitext (basename p)).1,
            (splitext p).1 ++ '.' :: 'h' :: []) := by
  induction lines with
  | nil => simp [firstHit] at h
  | cons l rest ih =>
    rw [_get_file_map_entry]
    cases hl : lineHit l with
    | some q =>
      rw [firstHit, List.findSome?_cons, hl] at h
      cases h
      rfl
    | none =>
      rw [firstHit, List.findSome?_cons, hl] at h
      exact ih h

/-- Witness for C3 at the spec scenario: `Bar.java` declaring
`package com.example.foo;`. -/
theorem spec_c3_witness :
    _get_file_map_entry ("x/Bar.java".toList)
        [("package com.example.foo;".toList)] =
      some ("com.example.foo.Bar".toList, "x/Bar.h".toList) := by
  rw [spec_c3 ("x/Bar.java".toList) [("package com.example.foo;".toList)]
      ("com.example.foo".toList) (by decide)]
  decide

/-- C4: the extractor produces at most one entry (it returns at most one
`Option` value), taken from the first accepted line: with all earlier
lines rejected and `l` accepted, the result is the entry derived from
`l` and does not depend on any later line. -/
theorem spec_c4 (p : Jstr) (pre : List Jstr) (l : Jstr) (pkg : Jstr)
    (rest rest2 : List Jstr)
    (hpre : ∀ x ∈ pre, lineHit x = none) (hl : lineHit l = some pkg) :
    _get_file_map_entry p (pre ++ l :: rest) =
      _get_file_map_entry p (pre ++ l :: rest2)
    ∧ _get_file_map_entry p (pre ++ l :: rest) =
      some (pkg ++ '.' :: (splitext (basename p)).1,
            (splitext p).1 ++ '.' :: 'h' :: []) := by
  induction pre with
  | nil =>
    simp only [List.nil_append]
    rw [_get_file_map_entry, _get_file_map_entry, hl]
    exact ⟨rfl, rfl⟩
  | cons a t ih =>
    have ha := hpre a (by simp)
    simp only [List.cons_append]
    rw [_get_file_map_entry, _get_file_map_entry, ha]
    exact ih (fun x hx => hpre x (by simp [hx]))

/-- Witness for C4: a comment line, then the accepted line, then a later
declaration that cannot change the result. -/
theorem spec_c4_witness :
    _get_file_map_entry ("A.java".toList)
        [("// hello".toList), ("package a.b;".toList), ("package c.d;".toList)] =
      _get_file_map_entry ("A.java".toList)
        [("// hello".toList), ("package a.b;".toList)]
    ∧ _get_file_map_entry ("A.java".toList)
        [("// hello".toList), ("package a.b;".toList), ("package c.d;".toList)] =
      some ("a.b.A".toList, "A.h".toList) := by
  have h := spec_c4 ("A.java".toList) [("// hello".toList)] ("package a.b;".toList)
      ("a.b".toList) [("package c.d;".toList)] []
      (by intro x hx; simp at hx; subst hx; decide) (by decide)
  simp only [List.singleton_append] at h
  exact ⟨h.1, by rw [h.2]; decide⟩

/-- C5: a unit in which no line is accepted yields no entry (the
extractor is a total function, so no exception is possible in the
model), and processing such a unit leaves the mapping table unchanged. -/
theorem spec_c5 (p : Jstr) (lines : List Jstr) (m : List (Jstr × Jstr))
    (h : ∀ l ∈ lines, lineHit l = none) :
    _get_file_map_entry p lines = none ∧ addEntry m ⟨p, lines⟩ = m := by
  have hnone : _get_file_map_entry p lines = none := by
    induction lines with
    | nil => rfl
    | cons a t ih =>
      rw [_get_file_map_entry, h a (by simp)]
      exact ih (fun x hx => h x (by simp [hx]))
  exact ⟨hnone, by simp [addEntry, hnone]⟩

/-- Witness for C5: a unit of malformed and commented lines. -/
theorem spec_c5_witness :
    _get_file_map_entry ("A.java".toList)
        [("class Foo".toList), ("// package a.b;".toList), ("end".toList)] = none
    ∧ addEntry [("k".toList, "v".toList)]
        ⟨"A.java".toList,
         [("class Foo".toList), ("// package a.b;".toList), ("end".toList)]⟩ =
      [("k".toList, "v".toList)] := by
  exact spec_c5 ("A.java".toList)
    [("class Foo".toList), ("// package a.b;".toList), ("end".toList)]
    [("k".toList, "v".toList)]
    (by intro l hl; simp at hl; rcases hl with h | h | h <;> subst h <;> decide)

/-- The archive loop equals the loop over the `.java`-filtered entry
list. -/
theorem processJar_eq_filter (m : List (Jstr × Jstr)) (jar : List SourceUnit) :
    processJar m jar =
      (jar.filter (fun u => endsWithL u.path (".java".toList))).foldl addEntry m := by
  induction jar generalizing m with
    | nil => rfl
    | cons u rest ih =>
      cases hu : endsWithL u.path (".java".toList) with
      | true =>
        rw [processJar, List.foldl_cons,
          List.filter_cons_of_pos (p := fun u : SourceUnit => endsWithL u.path (".java".toList))
            (a := u) (l := rest) hu,
          List.foldl_cons]
        have hs : jarStep m u = addEntry m u := by
          unfold jarStep; rw [hu]; exact if_pos rfl
        rw [hs]
        exact ih (addEntry m u)
      | false =>
        rw [processJar, List.foldl_cons,
          List.filter_cons_of_neg (p := fun u : SourceUnit => endsWithL u.path (".java".toList))
            (a := u) (l := rest)
            (by show ¬ endsWithL u.path (".java".toList) = true; rw [hu]; decide)]
        have hs : jarStep m u = m := by
          unfold jarStep; rw [hu]; exact if_neg (by decide)
        rw [hs]
        exact ih m

/-- C8: the archive loop scans exactly the entries whose internal name
ends with the case-sensitive suffix `.java`, and an archive entry
`pkg/Entry.java` declaring `package pkg;` yields the mapping entry
`pkg.Entry=pkg/Entry.h`, derived from the archive-internal entry path. -/
theorem spec_c8 :
    (∀ (m : List (Jstr × Jstr)) (jar : List SourceUnit),
      processJar m jar =
        (jar.filter (fun u => endsWithL u.path (".java".toList))).foldl addEntry m)
    ∧ mainMap []
        [[⟨"pkg/Entry.java".toList, ["package pkg;".toList]⟩,
          ⟨"pkg/Entry.JAVA".toList, ["package other;".toList]⟩,
          ⟨"pkg/readme.txt".toList, ["package nope;".toList]⟩]] =
      [("pkg.Entry".toList, "pkg/Entry.h".toList)] :=
  ⟨processJar_eq_filter, by decide⟩

/-- C9: with no `--output_mapping_file`, the run writes no file,
whatever was accumulated. -/
theorem spec_c9 (files : List SourceUnit) (jars : List (List SourceUnit)) :
    mainRun files jars none = none := rfl

/-- A Python whitespace character is not a word-or-dot character. -/
theorem isPySpace_isWordDot (c : Char) (h : isPySpace c = true) :
    isWordDot c = false := by
  simp only [isPySpace, Bool.or_eq_true, decide_eq_true_eq] at h
  rcases h with ((((h | h) | h) | h) | h) | h <;> subst h <;> decide

/-- A word-or-dot character is not Python whitespace. -/
theorem isWordDot_isPySpace (c : Char) (h : isWordDot c = true) :
    isPySpace c = false := by
  cases hp : isPySpace c
  · rfl
  · rw [isPySpace_isWordDot c hp] at h
    cases h

/-- A Python whitespace character is not the statement terminator. -/
theorem isPySpace_ne_semi (c : Char) (h : isPySpace c = true) : c ≠ ';' := by
  intro hc
  subst hc
  exact absurd h (by decide)

/-- Consuming a literal from a string that starts with it leaves the
remainder. -/
theorem dropLiteral_self_append (l s : Jstr) : dropLiteral l (l ++ s) = some s := by
  induction l with
  | nil => rfl
  | cons c cs ih => simp [dropLiteral, ih]

/-- `takeWhile` passes over a prefix all of whose characters satisfy the
predicate. -/
theorem takeWhile_append_all {q : Char → Bool} (a b : Jstr)
    (h : ∀ c ∈ a, q c = true) :
    (a ++ b).takeWhile q = a ++ b.takeWhile q := by
  induction a with
  | nil => rfl
  | cons c cs ih =>
    have hc : q c = true := h c (by simp)
    simp only [List.cons_append, List.takeWhile_cons_of_pos hc]
    rw [ih (fun x hx => h x (by simp [hx]))]

/-- `dropWhile` removes a prefix all of whose characters satisfy the
predicate. -/
theorem dropWhile_append_all {q : Char → Bool} (a b : Jstr)
    (h : ∀ c ∈ a, q c = true) :
    (a ++ b).dropWhile q = b.dropWhile q := by
  induction a with
  | nil => rfl
  | cons c cs ih =>
    have hc : q c = true := h c (by simp)
    simp only [List.cons_append, List.dropWhile_cons_of_pos hc]
    exact ih (fun x hx => h x (by simp [hx]))

/-- Shape of `_PACKAGE_RE` matching right after the keyword literal. -/
theorem matchPackageAt_package_append (s : Jstr) :
    matchPackageAt ("package".toList ++ s) =
      if (s.takeWhile isPySpace).isEmpty then none
      else if ((s.dropWhile isPySpace).takeWhile isWordDot).isEmpty then none
      else
        match (s.dropWhile isPySpace).dropWhile isWordDot with
        | [] => none
        | c :: _ =>
          if c = ';' then some ((s.dropWhile isPySpace).takeWhile isWordDot)
          else none := rfl

/-- After `package`, a nonempty whitespace run, then a nonempty
word-or-dot run, the regex looks at the very next character: the match
outcome is decided by the head of `tail` (which must not extend the
identifier run). -/
theorem matchPackageAt_shape (ws1 ident tail : Jstr)
    (hws1 : ws1 ≠ []) (h1 : ∀ c ∈ ws1, isPySpace c = true)
    (hid : ident ≠ []) (h2 : ∀ c ∈ ident, isWordDot c = true)
    (htail : ∀ c, tail.head? = some c → isWordDot c = false) :
    matchPackageAt ("package".toList ++ (ws1 ++ (ident ++ tail))) =
      match tail with
      | [] => none
      | c :: _ => if c = ';' then some ident else none := by
  obtain ⟨w, wt, rfl⟩ : ∃ w wt, ws1 = w :: wt := by
    cases ws1 with
    | nil => exact absurd rfl hws1
    | cons w wt => exact ⟨w, wt, rfl⟩
  obtain ⟨a, at2, rfl⟩ : ∃ a at2, ident = a :: at2 := by
    cases ident with
    | nil => exact absurd rfl hid
    | cons a at2 => exact ⟨a, at2, rfl⟩
  have ha : isWordDot a = true := h2 a (by simp)
  have hansp : ¬ isPySpace a = true := by rw [isWordDot_isPySpace a ha]; decide
  have e1 : ((w :: wt) ++ ((a :: at2) ++ tail)).takeWhile isPySpace = w :: wt := by
    rw [takeWhile_append_all _ _ h1]
    have h0 : ((a :: at2) ++ tail).takeWhile isPySpace = [] := by
      show ((a :: (at2 ++ tail)).takeWhile isPySpace) = []
      exact List.takeWhile_cons_of_neg hansp
    rw [h0, List.append_nil]
  have e2 : ((w :: wt) ++ ((a :: at2) ++ tail)).dropWhile isPySpace =
      (a :: at2) ++ tail := by
    rw [dropWhile_append_all _ _ h1]
    show ((a :: (at2 ++ tail)).dropWhile isPySpace) = (a :: at2) ++ tail
    rw [List.dropWhile_cons_of_neg hansp]
    rfl
  have htw : tail.takeWhile isWordDot = [] := by
    cases tail with
    | nil => rfl
    | cons c t2 =>
      exact List.takeWhile_cons_of_neg (by rw [htail c rfl]; decide)
  have htd : tail.dropWhile isWordDot = tail := by
    cases tail with
    | nil => rfl
    | cons c t2 =>
      exact List.dropWhile_cons_of_neg (by rw [htail c rfl]; decide)
  have e3 : ((a :: at2) ++ tail).takeWhile isWordDot = a :: at2 := by
    rw [takeWhile_append_all _ _ h2, htw, List.append_nil]
  have e4 : ((a :: at2) ++ tail).dropWhile isWordDot = tail := by
    rw [dropWhile_append_all _ _ h2, htd]
  rw [matchPackageAt_package_append, e1, e2, e3, e4]
  cases tail with
  | nil => simp
  | cons c t2 => simp

/-- C10: the pattern requires the terminator to follow the dotted
identifier immediately.  With a nonempty whitespace run between the
identifier and the terminator the pattern does not match at the keyword
position; without it the pattern matches there; and a unit whose only
line is `package com.example ;` yields no entry. -/
theorem spec_c10 :
    (∀ ws1 ident ws2 rest : Jstr,
      ws1 ≠ [] → (∀ c ∈ ws1, isPySpace c = true) →
      ident ≠ [] → (∀ c ∈ ident, isWordDot c = true) →
      ws2 ≠ [] → (∀ c ∈ ws2, isPySpace c = true) →
      matchPackageAt ("package".toList ++ (ws1 ++ (ident ++ (ws2 ++ ';' :: rest)))) = none)
    ∧ (∀ ws1 ident rest : Jstr,
      ws1 ≠ [] → (∀ c ∈ ws1, isPySpace c = true) →
      ident ≠ [] → (∀ c ∈ ident, isWordDot c = true) →
      matchPackageAt ("package".toList ++ (ws1 ++ (ident ++ (';' :: rest)))) = some ident)
    ∧ ∀ p : Jstr, _get_file_map_entry p [("package com.example ;".toList)] = none := by
  refine ⟨?_, ?_, ?_⟩
  · intro ws1 ident ws2 rest hws1 h1 hid h2 hws2 h3
    obtain ⟨v, vt, rfl⟩ : ∃ v vt, ws2 = v :: vt := by
      cases ws2 with
      | nil => exact absurd rfl hws2
      | cons v vt => exact ⟨v, vt, rfl⟩
    have hv : isPySpace v = true := h3 v (by simp)
    rw [matchPackageAt_shape ws1 ident ((v :: vt) ++ ';' :: rest) hws1 h1 hid h2
      (by intro c hc; cases hc; exact isPySpace_isWordDot v hv)]
    show (if v = ';' then some ident else none) = none
    rw [if_neg (isPySpace_ne_semi v hv)]
  · intro ws1 ident rest hws1 h1 hid h2
    rw [matchPackageAt_shape ws1 ident (';' :: rest) hws1 h1 hid h2
      (by intro c hc; cases hc; decide)]
    show (if ';' = ';' then some ident else none) = some ident
    rw [if_pos rfl]
  · intro p
    rw [_get_file_map_entry,
      show lineHit ("package com.example ;".toList) = none from by decide]
    rfl

/-- The pattern only matches at an occurrence of the keyword head. -/
theorem matchPackageAt_head (s pkg : Jstr) (h : matchPackageAt s = some pkg) :
    ∃ t, s = 'p' :: t := by
  cases s with
  | nil => simp [matchPackageAt, dropLiteral] at h
  | cons c t =>
    by_cases hc : c = 'p'
    · exact ⟨t, by rw [hc]⟩
    · rw [matchPackageAt] at h
      rw [show dropLiteral ('p' :: 'a' :: 'c' :: 'k' :: 'a' :: 'g' :: 'e' :: []) (c :: t) =
            (if 'p' = c then dropLiteral ('a' :: 'c' :: 'k' :: 'a' :: 'g' :: 'e' :: []) t
             else none) from rfl,
        if_neg (fun hh => hc hh.symm)] at h
      cases h

/-- The pattern does not match at a position whose character differs
from the keyword head. -/
theorem matchPackageAt_cons_ne (c : Char) (t : Jstr) (hc : c ≠ 'p') :
    matchPackageAt (c :: t) = none := by
  cases hm : matchPackageAt (c :: t) with
  | none => rfl
  | some g =>
    obtain ⟨t2, ht⟩ := matchPackageAt_head _ _ hm
    injection ht with h1 h2
    exact absurd h1 hc

/-- One step of the left-to-right scan of `re.search`. -/
theorem searchPackage_cons_ne (c : Char) (t : Jstr) (hc : c ≠ 'p') :
    searchPackage (c :: t) = (searchPackage t).map (fun q => (q.1 + 1, q.2)) := by
  rw [searchPackage, matchPackageAt_cons_ne c t hc]

/-- A successful search means the pattern matches at the reported
position. -/
theorem searchPackage_some (s : Jstr) (i : Nat) (pkg : Jstr)
    (h : searchPackage s = some (i, pkg)) :
    matchPackageAt (s.drop i) = some pkg := by
  induction s generalizing i with
  | nil => simp [searchPackage, matchPackageAt, dropLiteral] at h
  | cons c t ih =>
    rw [searchPackage] at h
    cases hm : matchPackageAt (c :: t) with
    | some g =>
      simp only [hm] at h
      cases h
      exact hm
    | none =>
      simp only [hm] at h
      cases hs : searchPackage t with
      | none => rw [hs] at h; cases h
      | some q =>
        rw [hs, Option.map_some'] at h
        cases h
        exact ih q.1 (by rw [hs])

/-- The reported match position lies inside the string. -/
theorem searchPackage_some_lt (s : Jstr) (i : Nat) (pkg : Jstr)
    (h : searchPackage s = some (i, pkg)) : i < s.length := by
  obtain ⟨t, ht⟩ := matchPackageAt_head _ _ (searchPackage_some s i pkg h)
  by_contra hlt
  rw [List.drop_eq_nil_of_le (Nat.le_of_not_lt hlt)] at ht
  cases ht

/-- With a match at a positive position, the trimmed line starts with
the line-comment marker exactly when the preceding characters do. -/
theorem startsWith_take_comment (s : Jstr) (i : Nat) (pkg : Jstr)
    (h : searchPackage s = some (i, pkg)) (hi : 0 < i) :
    startsWithL s ('/' :: '/' :: []) = startsWithL (s.take i) ('/' :: '/' :: []) := by
  obtain ⟨t, ht⟩ := matchPackageAt_head _ _ (searchPackage_some s i pkg h)
  cases s with
  | nil =>
    have := searchPackage_some_lt _ _ _ h
    simp at this
  | cons a u =>
    cases i with
    | zero => exact absurd hi (by decide)
    | succ i1 =>
      cases i1 with
      | zero =>
        have hu : u = 'p' :: t := ht
        subst hu
        show startsWithL (a :: 'p' :: t) ('/' :: '/' :: []) =
          startsWithL (a :: []) ('/' :: '/' :: [])
        simp [startsWithL]
      | succ i2 =>
        cases u with
        | nil => simp at ht
        | cons b w =>
          show startsWithL (a :: b :: w) ('/' :: '/' :: []) =
            startsWithL (a :: b :: w.take i2) ('/' :: '/' :: [])
          simp [startsWithL]

/-- Evaluation of the per-line heuristic when the pattern matches at a
positive position: the comment test and the preceding-character test on
the characters before the match decide the outcome. -/
theorem lineHit_eq (line : Jstr) (i : Nat) (pkg : Jstr)
    (h : searchPackage (pyStrip line) = some (i, pkg)) (hi : 0 < i) :
    lineHit line =
      if startsWithL ((pyStrip line).take i) ('/' :: '/' :: []) then none
      else if isPySpace (((pyStrip line).take i).getLastD ' ')
              || endsWithL ((pyStrip line).take i) (';' :: [])
              || endsWithL ((pyStrip line).take i) ('*' :: '/' :: []) then some pkg
      else none := by
  have hne : ((pyStrip line).take i).isEmpty = false := by
    rw [List.isEmpty_eq_false]
    intro hnil
    have hlen : ((pyStrip line).take i).length = 0 := by rw [hnil]; rfl
    rw [List.length_take] at hlen
    have hlt := searchPackage_some_lt _ _ _ h
    omega
  simp only [lineHit]
  rw [h]
  show (if ((pyStrip line).take i).isEmpty then some pkg
        else if startsWithL ((pyStrip line).take i) ('/' :: '/' :: []) then none
        else if isPySpace (((pyStrip line).take i).getLastD ' ')
                || endsWithL ((pyStrip line).take i) (';' :: [])
                || endsWithL ((pyStrip line).take i) ('*' :: '/' :: []) then some pkg
        else none) = _
  rw [hne]
  rw [if_neg (by decide)]

/-- C2: with a candidate match and nonempty preceding characters, a
trimmed line starting with `//` is rejected, and otherwise the line is
accepted exactly when the last preceding character is whitespace or the
preceding characters end with `;` or with `*/`. -/
theorem spec_c2 (line : Jstr) (i : Nat) (pkg : Jstr)
    (h : searchPackage (pyStrip line) = some (i, pkg)) (hi : 0 < i) :
    (startsWithL (pyStrip line) ('/' :: '/' :: []) = true → lineHit line = none)
    ∧ (startsWithL (pyStrip line) ('/' :: '/' :: []) = false →
        (lineHit line = some pkg ↔
          isPySpace (((pyStrip line).take i).getLastD ' ') = true
          ∨ endsWithL ((pyStrip line).take i) (';' :: []) = true
          ∨ endsWithL ((pyStrip line).take i) ('*' :: '/' :: []) = true)) := by
  have hco := lineHit_eq line i pkg h hi
  have hsw := startsWith_take_comment (pyStrip line) i pkg h hi
  constructor
  · intro hs
    rw [hco, if_pos (by rw [← hsw]; exact hs)]
  · intro hs
    rw [hco, if_neg (by rw [← hsw, hs]; decide)]
    constructor
    · intro hsome
      by_cases hcond : (isPySpace (((pyStrip line).take i).getLastD ' ')
          || endsWithL ((pyStrip line).take i) (';' :: [])
          || endsWithL ((pyStrip line).take i) ('*' :: '/' :: [])) = true
      · simpa [Bool.or_eq_true, or_assoc] using hcond
      · rw [if_neg hcond] at hsome
        cases hsome
    · intro hdisj
      rw [if_pos (show (isPySpace (((pyStrip line).take i).getLastD ' ')
          || endsWithL ((pyStrip line).take i) (';' :: [])
          || endsWithL ((pyStrip line).take i) ('*' :: '/' :: [])) = true from by
        simpa [Bool.or_eq_true, or_assoc] using hdisj)]

/-- Witness for C2: a commented-out declaration is not matched; a
declaration after a closed block comment on the same line is matched. -/
theorem spec_c2_witness :
    lineHit ("// package com.example;".toList) = none
    ∧ lineHit ("*/ package com.example;".toList) = some ("com.example".toList) :=
  ⟨(spec_c2 ("// package com.example;".toList) 3 ("com.example".toList)
      (by decide) (by decide)).1 (by decide),
   ((spec_c2 ("*/ package com.example;".toList) 3 ("com.example".toList)
      (by decide) (by decide)).2 (by decide)).mpr (Or.inl (by decide))⟩

/-- Stripping is the identity when neither end of the string is
whitespace. -/
theorem pyStrip_eq_self (s : Jstr)
    (h1 : ∀ c, s.head? = some c → isPySpace c = false)
    (h2 : ∀ c, s.getLast? = some c → isPySpace c = false) :
    pyStrip s = s := by
  have hd : ∀ (l : Jstr), (∀ c, l.head? = some c → isPySpace c = false) →
      l.dropWhile isPySpace = l := by
    intro l hl
    cases l with
    | nil => rfl
    | cons a t => exact List.dropWhile_cons_of_neg (by rw [hl a rfl]; decide)
  rw [pyStrip, hd s h1,
    hd s.reverse (fun c hc => h2 c (by rwa [List.head?_reverse] at hc)),
    List.reverse_reverse]

/-- The scan of `re.search` walks over a prefix in which the keyword
head never occurs, shifting the reported position by its length. -/
theorem searchPackage_skip (pre t : Jstr) (h : ∀ c ∈ pre, c ≠ 'p') :
    searchPackage (pre ++ t) =
      (searchPackage t).map (fun q => (q.1 + pre.length, q.2)) := by
  induction pre with
  | nil => cases hq : searchPackage t <;> simp [hq]
  | cons c cs ih =>
    rw [List.cons_append, searchPackage_cons_ne c (cs ++ t) (h c (by simp)),
      ih (fun x hx => h x (by simp [hx]))]
    cases hq : searchPackage t <;> simp [hq, Nat.add_assoc]

/-- Counterexample to C1 as stated: a declaration preceded by an
unclosed block-comment opener and a space is accepted, not rejected. -/
theorem spec_c1_counterexample :
    lineHit ("/* package com.example;".toList) = some ("com.example".toList)
    ∧ _get_file_map_entry ("Foo.java".toList)
        [("/* package com.example;".toList)] =
      some ("com.example.Foo".toList, "Foo.h".toList) :=
  ⟨by decide, by decide⟩

/-- C1 (amended): an unclosed block-comment opener abutting the keyword
is rejected, but any whitespace between the opener and the keyword makes
the line accepted; declarations after a closed comment or another
statement on the same line are accepted. -/
theorem spec_c1 :
    (∀ gap : Jstr, gap ≠ [] → (∀ c ∈ gap, isPySpace c = true) →
      lineHit ('/' :: '*' :: (gap ++ "package com.example;".toList)) =
        some ("com.example".toList))
    ∧ lineHit ("/*package com.example;".toList) = none
    ∧ lineHit ("*/ package com.example;".toList) = some ("com.example".toList)
    ∧ lineHit ("foo();package com.example;".toList) = some ("com.example".toList) := by
  refine ⟨?_, by decide, by decide, by decide⟩
  intro gap hne hsp
  have hpre : ∀ c ∈ ('/' :: '*' :: gap : Jstr), c ≠ 'p' := by
    intro c hc
    simp only [List.mem_cons] at hc
    rcases hc with h | h | h
    · subst h; decide
    · subst h; decide
    · have := hsp c h
      intro he
      subst he
      exact absurd this (by decide)
  have hsearch : searchPackage ('/' :: '*' :: (gap ++ "package com.example;".toList)) =
      some (gap.length + 2, "com.example".toList) := by
    have hs := searchPackage_skip ('/' :: '*' :: gap) ("package com.example;".toList) hpre
    rw [show (('/' :: '*' :: gap : Jstr) ++ "package com.example;".toList) =
        '/' :: '*' :: (gap ++ "package com.example;".toList) from rfl] at hs
    rw [hs, show searchPackage ("package com.example;".toList) =
        some (0, "com.example".toList) from by decide]
    simp
  have hstrip : pyStrip ('/' :: '*' :: (gap ++ "package com.example;".toList)) =
      '/' :: '*' :: (gap ++ "package com.example;".toList) := by
    apply pyStrip_eq_self
    · intro c hc
      cases hc
      decide
    · intro c hc
      rw [show ('/' :: '*' :: (gap ++ "package com.example;".toList) : Jstr) =
          ('/' :: '*' :: gap) ++ "package com.example;".toList from rfl,
        List.getLast?_append,
        show ("package com.example;".toList : Jstr).getLast? = some ';' from by decide,
        Option.or_some] at hc
      cases hc
      decide
  obtain ⟨c0, hc0⟩ : ∃ c0, (gap : Jstr).getLast? = some c0 := by
    cases gap with
    | nil => exact absurd rfl hne
    | cons g gt => exact ⟨(g :: gt).getLast (by simp), List.getLast?_eq_getLast _ _⟩
  have hc0sp : isPySpace c0 = true := hsp c0 (List.mem_of_getLast?_eq_some hc0)
  have htake : ('/' :: '*' :: (gap ++ "package com.example;".toList)).take (gap.length + 2) =
      '/' :: '*' :: gap := by
    show ('/' :: '*' :: (gap ++ "package com.example;".toList)).take (gap.length + 1 + 1) =
      '/' :: '*' :: gap
    rw [List.take_succ_cons, List.take_succ_cons, List.take_left]
  have hlast : ('/' :: '*' :: gap : Jstr).getLast? = some c0 := by
    cases gap with
    | nil => exact absurd rfl hne
    | cons g gt => rw [List.getLast?_cons_cons, List.getLast?_cons_cons]; exact hc0
  rw [lineHit_eq _ (gap.length + 2) ("com.example".toList)
      (by rw [hstrip]; exact hsearch) (by omega),
    hstrip, htake,
    if_neg (by simp [startsWithL]),
    if_pos (by
      rw [List.getLastD_eq_getLast?, hlast, Option.getD_some, hc0sp]
      simp)]

/-- Witness for C1 (amended) at a single-space gap. -/
theorem spec_c1_witness :
    lineHit ('/' :: '*' :: ([' '] ++ "package com.example;".toList)) =
      some ("com.example".toList) :=
  spec_c1.1 [' '] (by decide) (by decide)

/-- Witness for C10 at `package com ;` and `package com;`. -/
theorem spec_c10_witness :
    matchPackageAt
        ("package".toList ++ ([' '] ++ ("com".toList ++ ([' '] ++ ';' :: [])))) = none
    ∧ matchPackageAt
        ("package".toList ++ ([' '] ++ ("com".toList ++ (';' :: [])))) =
      some ("com".toList)
    ∧ _get_file_map_entry ("A.java".toList)
        [("package com.example ;".toList)] = none :=
  ⟨spec_c10.1 [' '] ("com".toList) [' '] [] (by decide) (by decide) (by decide)
      (by decide) (by decide) (by decide),
   spec_c10.2.1 [' '] ("com".toList) [] (by decide) (by decide) (by decide)
      (by decide),
   spec_c10.2.2 ("A.java".toList)⟩

/-- Last element of a cons, through `Option.or`. -/
theorem getLast?_cons_or {α : Type} (a : α) (l : List α) :
    (a :: l).getLast? = l.getLast?.or (some a) := by
  induction l generalizing a with
  | nil => rfl
  | cons b t ih =>
    rw [List.getLast?_cons_cons, ih b]
    cases t.getLast? <;> rfl

/-- `Option.map` distributes over `Option.or`. -/
theorem map_or_comm {α β : Type} (f : α → β) (x y : Option α) :
    (x.or y).map f = (x.map f).or (y.map f) := by
  cases x <;> rfl

/-- `Option.or` drops everything after a `some` in second position. -/
theorem or_some_or {α : Type} (x y : Option α) (a : α) :
    (x.or (some a)).or y = x.or (some a) := by
  cases x <;> rfl

/-- Looking up the key just written returns the written value. -/
theorem lookupKey_setKey_self (m : List (Jstr × Jstr)) (k v : Jstr) :
    lookupKey k (setKey m k v) = some v := by
  induction m with
  | nil => simp [setKey, lookupKey]
  | cons e rest ih =>
    obtain ⟨k0, v0⟩ := e
    by_cases hk : k0 = k
    · subst hk
      simp [setKey, lookupKey]
    · simp [setKey, lookupKey, hk, ih]

/-- Writing one key leaves the lookup of any other key unchanged. -/
theorem lookupKey_setKey_ne (m : List (Jstr × Jstr)) (k2 v k : Jstr)
    (h : k2 ≠ k) : lookupKey k (setKey m k2 v) = lookupKey k m := by
  induction m with
  | nil => simp [setKey, lookupKey, h]
  | cons e rest ih =>
    obtain ⟨k0, v0⟩ := e
    by_cases hk : k0 = k2
    · subst hk
      simp [setKey, lookupKey, h]
    · simp [setKey, lookupKey, hk, ih]

/-- Keys present after a dict assignment. -/
theorem mem_keys_setKey (m : List (Jstr × Jstr)) (k v a : Jstr) :
    a ∈ (setKey m k v).map Prod.fst ↔ a ∈ m.map Prod.fst ∨ a = k := by
  induction m with
  | nil => simp [setKey]
  | cons e rest ih =>
    obtain ⟨k0, v0⟩ := e
    by_cases hk : k0 = k
    · subst hk
      simp [setKey]
      tauto
    · simp [setKey, hk, ih]
      tauto

/-- A dict assignment keeps the keys without duplicates. -/
theorem nodup_keys_setKey (m : List (Jstr × Jstr)) (k v : Jstr)
    (h : (m.map Prod.fst).Nodup) : ((setKey m k v).map Prod.fst).Nodup := by
  induction m with
  | nil => simp [setKey]
  | cons e rest ih =>
    obtain ⟨k0, v0⟩ := e
    rw [List.map_cons, List.nodup_cons] at h
    by_cases hk : k0 = k
    · subst hk
      have hset : setKey ((k0, v0) :: rest) k0 v = (k0, v) :: rest := by
        simp [setKey]
      rw [hset, List.map_cons, List.nodup_cons]
      exact h
    · have hset : setKey ((k0, v0) :: rest) k v = (k0, v0) :: setKey rest k v := by
        simp [setKey, hk]
      rw [hset, List.map_cons, List.nodup_cons]
      refine ⟨?_, ih h.2⟩
      rw [mem_keys_setKey]
      rintro (hmem | hmem)
      · exact h.1 hmem
      · exact hk hmem

/-- Accumulating one unit keeps the keys without duplicates. -/
theorem nodup_keys_addEntry (m : List (Jstr × Jstr)) (u : SourceUnit)
    (h : (m.map Prod.fst).Nodup) : ((addEntry m u).map Prod.fst).Nodup := by
  rw [addEntry]
  cases _get_file_map_entry u.path u.lines with
  | none => exact h
  | some e => exact nodup_keys_setKey m e.1 e.2 h

/-- Accumulating any unit sequence keeps the keys without duplicates. -/
theorem nodup_keys_foldl (us : List SourceUnit) (m : List (Jstr × Jstr))
    (h : (m.map Prod.fst).Nodup) :
    ((us.foldl addEntry m).map Prod.fst).Nodup := by
  induction us generalizing m with
  | nil => exact h
  | cons u rest ih =>
    rw [List.foldl_cons]
    exact ih (addEntry m u) (nodup_keys_addEntry m u h)

/-- The archive phase equals a single fold over the filtered,
flattened archive entries. -/
theorem processJars_eq (jars : List (List SourceUnit)) (m : List (Jstr × Jstr)) :
    processJars m jars =
      ((jars.map (fun jar => jar.filter
          (fun u => endsWithL u.path (".java".toList)))).flatten).foldl addEntry m := by
  induction jars generalizing m with
  | nil => rfl
  | cons jar rest ih =>
    rw [processJars, List.foldl_cons, List.map_cons, List.flatten_cons,
      List.foldl_append, ← processJar_eq_filter m jar]
    exact ih (processJar m jar)

/-- The whole accumulation of `main` is one fold over `unitSeq`. -/
theorem mainMap_eq (files : List SourceUnit) (jars : List (List SourceUnit)) :
    mainMap files jars = (unitSeq files jars).foldl addEntry [] := by
  rw [mainMap, unitSeq, List.foldl_append]
  exact processJars_eq jars (processFiles [] files)

/-- The keys of the final table hold no duplicates. -/
theorem nodup_keys_mainMap (files : List SourceUnit) (jars : List (List SourceUnit)) :
    ((mainMap files jars).map Prod.fst).Nodup := by
  rw [mainMap_eq]
  exact nodup_keys_foldl _ [] (by simp)

/-- In a table with duplicate-free keys, filtering by a key yields the
looked-up binding alone. -/
theorem filter_key_of_nodup (m : List (Jstr × Jstr))
    (h : (m.map Prod.fst).Nodup) (k : Jstr) :
    m.filter (fun e => e.1 = k) =
      ((lookupKey k m).map (fun v => ((k, v) : Jstr × Jstr))).toList := by
  induction m with
  | nil => rfl
  | cons e rest ih =>
    obtain ⟨k0, v0⟩ := e
    rw [List.map_cons, List.nodup_cons] at h
    by_cases hk : k0 = k
    · subst hk
      rw [List.filter_cons_of_pos (by simp)]
      have hrest : rest.filter (fun e => e.1 = k0) = [] := by
        rw [List.filter_eq_nil_iff]
        intro e he
        simp only [decide_eq_true_eq]
        intro hek
        exact h.1 (List.mem_map.mpr ⟨e, he, hek⟩)
      rw [hrest]
      simp [lookupKey]
    · rw [List.filter_cons_of_neg (by simp [hk]), ih h.2]
      simp [lookupKey, hk]

/-- Looking a key up after a fold: the last entry written for that key
wins, else the key keeps its previous binding. -/
theorem lookup_foldl (us : List SourceUnit) (m : List (Jstr × Jstr)) (k : Jstr) :
    lookupKey k (us.foldl addEntry m) = (lastWins us k).or (lookupKey k m) := by
  induction us generalizing m with
  | nil => rfl
  | cons u rest ih =>
    rw [List.foldl_cons, ih (addEntry m u)]
    cases hu : _get_file_map_entry u.path u.lines with
    | none =>
      have ha : addEntry m u = m := by rw [addEntry, hu]
      have hl : lastWins (u :: rest) k = lastWins rest k := by
        rw [lastWins, lastWins,
          List.filterMap_cons_none
            (f := fun u : SourceUnit => _get_file_map_entry u.path u.lines) hu]
      rw [ha, hl]
    | some e =>
      obtain ⟨k2, v2⟩ := e
      have ha : addEntry m u = setKey m k2 v2 := by rw [addEntry, hu]
      by_cases hk : k2 = k
      · subst hk
        have hl : lastWins (u :: rest) k2 = (lastWins rest k2).or (some v2) := by
          rw [lastWins, lastWins,
            List.filterMap_cons_some
              (f := fun u : SourceUnit => _get_file_map_entry u.path u.lines) hu,
            List.filter_cons_of_pos (by simp), getLast?_cons_or, map_or_comm]
          rfl
        rw [ha, hl, lookupKey_setKey_self, or_some_or]
      · have hl : lastWins (u :: rest) k = lastWins rest k := by
          rw [lastWins, lastWins,
            List.filterMap_cons_some
              (f := fun u : SourceUnit => _get_file_map_entry u.path u.lines) hu,
            List.filter_cons_of_neg (by simp [hk])]
        rw [ha, hl, lookupKey_setKey_ne m k2 v2 k hk]

/-- C6: when two input units produce entries with the same qualified
name, the final table holds exactly one entry for that key, and its
value comes from the unit processed last in `unitSeq` order (loose
files, then archive entries). -/
theorem spec_c6 (files : List SourceUnit) (jars : List (List SourceUnit))
    (u1 u2 : SourceUnit) (k v1 v2 : Jstr)
    (h1 : u1 ∈ unitSeq files jars)
    (e1 : _get_file_map_entry u1.path u1.lines = some (k, v1))
    (h2 : u2 ∈ unitSeq files jars)
    (e2 : _get_file_map_entry u2.path u2.lines = some (k, v2)) :
    ∃ v, lastWins (unitSeq files jars) k = some v
      ∧ lookupKey k (mainMap files jars) = some v
      ∧ (mainMap files jars).filter (fun e => e.1 = k) = [(k, v)] := by
  have hmem : ((k, v2) : Jstr × Jstr) ∈
      (unitSeq files jars).filterMap (fun u => _get_file_map_entry u.path u.lines) :=
    List.mem_filterMap.mpr ⟨u2, h2, e2⟩
  have hmem2 : ((k, v2) : Jstr × Jstr) ∈
      ((unitSeq files jars).filterMap
        (fun u => _get_file_map_entry u.path u.lines)).filter (fun e => e.1 = k) :=
    List.mem_filter.mpr ⟨hmem, by simp⟩
  obtain ⟨e, he⟩ : ∃ e, (((unitSeq files jars).filterMap
      (fun u => _get_file_map_entry u.path u.lines)).filter
        (fun e => e.1 = k)).getLast? = some e :=
    ⟨_, List.getLast?_eq_getLast _ (List.ne_nil_of_mem hmem2)⟩
  have heq : e.1 = k := by
    have hin := List.mem_filter.mp (List.mem_of_getLast?_eq_some he)
    simpa using hin.2
  have hwins : lastWins (unitSeq files jars) k = some e.2 := by
    rw [lastWins, he, Option.map_some']
  have hlook : lookupKey k (mainMap files jars) = some e.2 := by
    rw [mainMap_eq, lookup_foldl, hwins]
    rfl
  refine ⟨e.2, hwins, hlook, ?_⟩
  rw [filter_key_of_nodup _ (nodup_keys_mainMap files jars) k, hlook]
  rfl

/-- Witness for C6: a loose file and an archive entry declaring the same
qualified name; the archive entry, processed last, wins. -/
theorem spec_c6_witness :
    ∃ v, lastWins (unitSeq
        [⟨"A.java".toList, ["package p;".toList]⟩]
        [[⟨"A.java".toList, ["package p;".toList, "late".toList]⟩]])
        ("p.A".toList) = some v
      ∧ lookupKey ("p.A".toList) (mainMap
          [⟨"A.java".toList, ["package p;".toList]⟩]
          [[⟨"A.java".toList, ["package p;".toList, "late".toList]⟩]]) = some v
      ∧ (mainMap
          [⟨"A.java".toList, ["package p;".toList]⟩]
          [[⟨"A.java".toList, ["package p;".toList, "late".toList]⟩]]).filter
            (fun e => e.1 = ("p.A".toList)) = [(("p.A".toList), v)] :=
  spec_c6 [⟨"A.java".toList, ["package p;".toList]⟩]
    [[⟨"A.java".toList, ["package p;".toList, "late".toList]⟩]]
    ⟨"A.java".toList, ["package p;".toList]⟩
    ⟨"A.java".toList, ["package p;".toList, "late".toList]⟩
    ("p.A".toList) ("A.h".toList) ("A.h".toList)
    (by decide) (by decide) (by decide) (by decide)

/-- The byte order on strings is reflexive. -/
theorem strLe_refl (x : Jstr) : strLe x x = true := by
  induction x with
  | nil => rfl
  | cons a as ih => simp [strLe, ih]

/-- The byte order on strings is total. -/
theorem strLe_total (x y : Jstr) : strLe x y = true ∨ strLe y x = true := by
  induction x generalizing y with
  | nil => exact Or.inl rfl
  | cons a as ih =>
    cases y with
    | nil => exact Or.inr rfl
    | cons b bs =>
      by_cases hab : a = b
      · subst hab
        rcases ih bs with h | h
        · exact Or.inl (by simp [strLe, h])
        · exact Or.inr (by simp [strLe, h])
      · rcases lt_trichotomy a b with h | h | h
        · exact Or.inl (by simp [strLe, hab, h])
        · exact absurd h hab
        · exact Or.inr (by simp [strLe, Ne.symm hab, h])

/-- The byte order on strings is transitive. -/
theorem strLe_trans (x y z : Jstr) (h1 : strLe x y = true)
    (h2 : strLe y z = true) : strLe x z = true := by
  induction x generalizing y z with
  | nil => rfl
  | cons a as ih =>
    cases y with
    | nil => cases h1
    | cons b bs =>
      cases z with
      | nil => cases h2
      | cons c cs =>
        simp only [strLe] at h1 h2 ⊢
        by_cases hab : a = b
        · subst hab
          rw [if_pos rfl] at h1
          by_cases hac : a = c
          · subst hac
            rw [if_pos rfl] at h2 ⊢
            exact ih bs cs h1 h2
          · rw [if_neg hac] at h2 ⊢
            exact h2
        · rw [if_neg hab] at h1
          have hab2 : a < b := of_decide_eq_true h1
          by_cases hbc : b = c
          · subst hbc
            rw [if_neg hab]
            exact decide_eq_true hab2
          · rw [if_neg hbc] at h2
            have hbc2 : b < c := of_decide_eq_true h2
            have hac2 : a < c := lt_trans hab2 hbc2
            rw [if_neg (ne_of_lt hac2)]
            exact decide_eq_true hac2

/-- The byte order on strings is antisymmetric. -/
theorem strLe_antisymm (x y : Jstr) (h1 : strLe x y = true)
    (h2 : strLe y x = true) : x = y := by
  induction x generalizing y with
  | nil =>
    cases y with
    | nil => rfl
    | cons b bs => cases h2
  | cons a as ih =>
    cases y with
    | nil => cases h1
    | cons b bs =>
      by_cases hab : a = b
      · subst hab
        simp only [strLe, if_pos rfl] at h1 h2
        rw [ih bs h1 h2]
      · simp only [strLe, if_neg hab, if_neg (Ne.symm hab)] at h1 h2
        have hlt1 : a < b := of_decide_eq_true h1
        have hlt2 : b < a := of_decide_eq_true h2
        exact absurd (lt_trans hlt1 hlt2) (lt_irrefl a)

/-- Inserting into a list permutes pushing on the front. -/
theorem insertSorted_perm (k : Jstr) (l : List Jstr) :
    List.Perm (insertSorted k l) (k :: l) := by
  induction l with
  | nil => exact List.Perm.refl _
  | cons x xs ih =>
    rw [insertSorted]
    by_cases h : strLe k x = true
    · rw [if_pos h]
    · rw [if_neg h]
      exact (ih.cons x).trans (List.Perm.swap k x xs)

/-- Inserting into a sorted list keeps it sorted. -/
theorem pairwise_insertSorted (k : Jstr) (l : List Jstr)
    (h : l.Pairwise (fun a b => strLe a b = true)) :
    (insertSorted k l).Pairwise (fun a b => strLe a b = true) := by
  induction l with
  | nil => simp [insertSorted]
  | cons x xs ih =>
    rw [insertSorted]
    rcases List.pairwise_cons.mp h with ⟨hx, hxs⟩
    by_cases hk : strLe k x = true
    · rw [if_pos hk]
      refine List.pairwise_cons.mpr ⟨?_, h⟩
      intro y hy
      rcases List.mem_cons.mp hy with rfl | hy2
      · exact hk
      · exact strLe_trans k x y hk (hx y hy2)
    · rw [if_neg hk]
      refine List.pairwise_cons.mpr ⟨?_, ih hxs⟩
      intro y hy
      rcases List.mem_cons.mp ((insertSorted_perm k xs).mem_iff.mp hy) with rfl | hy2
      · rcases strLe_total x y with h2 | h2
        · exact h2
        · exact absurd h2 hk
      · exact hx y hy2

/-- The model of `sorted` permutes its input. -/
theorem pySorted_perm (l : List Jstr) : List.Perm (pySorted l) l := by
  induction l with
  | nil => exact List.Perm.refl _
  | cons x xs ih => exact (insertSorted_perm x (pySorted xs)).trans (ih.cons x)

/-- The model of `sorted` sorts. -/
theorem pairwise_pySorted (l : List Jstr) :
    (pySorted l).Pairwise (fun a b => strLe a b = true) := by
  induction l with
  | nil => exact List.Pairwise.nil
  | cons x xs ih => exact pairwise_insertSorted x (pySorted xs) ih

/-- On duplicate-free input the model of `sorted` is strictly
ascending. -/
theorem pairwise_strLt_pySorted (l : List Jstr) (h : l.Nodup) :
    (pySorted l).Pairwise (fun a b => strLt a b = true) := by
  have hnd : (pySorted l).Nodup := (pySorted_perm l).nodup_iff.mpr h
  exact ((pairwise_pySorted l).and hnd).imp
    (fun hab => by
      rw [strLt, hab.1, Bool.true_and]
      exact decide_eq_true hab.2)

/-- C7: with an output path configured, the run writes exactly that one
file; its content is the concatenation, over the keys in sorted order,
of one `qualifiedName=headerPath` line each ending in a single newline,
with nothing else; the sorted key list is strictly ascending in byte
order and is a permutation of the table keys (one line per entry). -/
theorem spec_c7 (files : List SourceUnit) (jars : List (List SourceUnit))
    (p : Jstr) :
    mainRun files jars (some p) =
      some (p, ((pySorted ((mainMap files jars).map Prod.fst)).map
        (fun k => k ++ '=' ::
          ((lookupKey k (mainMap files jars)).getD [] ++ '\n' :: []))).flatten)
    ∧ List.Perm (pySorted ((mainMap files jars).map Prod.fst))
        ((mainMap files jars).map Prod.fst)
    ∧ (pySorted ((mainMap files jars).map Prod.fst)).Pairwise
        (fun a b => strLt a b = true) :=
  ⟨rfl, pySorted_perm _,
   pairwise_strLt_pySorted _ (nodup_keys_mainMap files jars)⟩
